import Mathlib

/-!
Verification of the NTU timetable-to-calendar converter.

This file gives a shallow embedding of the two core stages of the program:
the tabular-text parser (`src/course.rs`: `parse_from_table` and the field
parsers `parse_period`, `parse_weeks`, `parse_exam`, weekday parsing via
chrono's `FromStr for Weekday`) and the event expander (`src/cal.rs`:
`generate_events`, `generate_class_events`, `generate_exam_event`), together
with theorems settling the specification claims about them.

Modelling conventions:
* Rust `&str`/`String` values are `List Char`; where the source logic is
  byte-oriented (chrono's weekday scanner) we use the characters' code
  points, which coincide with the bytes on ASCII input.
* Rust machine integers are `Nat` with explicit `< 2 ^ 32` bounds where the
  source can overflow.
* A Rust function that can panic is modelled with the `RRes` type whose
  `.panic` constructor marks an aborted computation (`unwrap` on a failing
  value, or arithmetic overflow under the debug profile); `.err` carries the
  error value the function returns with `Err`.
* chrono's `NaiveDate` is modelled by its internal representation, a
  (year, ordinal-day) pair (`CalDate`), and where only date arithmetic is
  needed, by the absolute day number `absOfYmd`-style `Nat` (day 1 =
  January 1 of proleptic-Gregorian year 0).  Only non-negative years are
  modelled; the program's semester dates are contemporary.
* `Uuid::new_v4()` and `Utc::now()` are nondeterministic and only feed the
  event's identifier and creation-stamp fields, which no claim mentions;
  the modelled event record omits those two fields.
-/

namespace NTT

/-- Outcome of a Rust computation that may return an error or panic. -/
inductive RRes (ε : Type) (α : Type) where
  | ok (a : α)
  | err (e : ε)
  | panic
  deriving DecidableEq, Repr

/-! ## List/string utilities mirroring the Rust string operations -/

/-- Model of Rust's `str::split(sep)`: always returns at least one piece;
adjacent separators and boundary separators yield empty pieces. -/
def splitSep (sep : Char) : List Char → List (List Char)
  | [] => [[]]
  | c :: rest =>
    match splitSep sep rest with
    | [] => [[]]
    | p :: ps => if c = sep then [] :: p :: ps else (c :: p) :: ps

/-- Joining with a separator; inverse of `splitSep` on separator-free pieces. -/
def joinSep (sep : Char) : List (List Char) → List Char
  | [] => []
  | [p] => p
  | p :: q :: r => p ++ sep :: joinSep sep (q :: r)

/-- Worker for `chunksOf`, structurally recursive on a fuel argument so that
it reduces definitionally; `fuel ≥ l.length` makes it total on `l`. -/
def chunksOfGo (n : Nat) : Nat → List α → List (List α)
  | _, [] => []
  | 0, _ :: _ => []
  | fuel + 1, x :: xs => (x :: xs).take n :: chunksOfGo n fuel ((x :: xs).drop n)

/-- Model of itertools' `chunks(n)` (with `n > 0`): splits a list into
consecutive chunks of `n` elements, the final chunk possibly shorter. -/
def chunksOf (n : Nat) (l : List α) : List (List α) := chunksOfGo n l.length l

/-- Model of Rust's `str::trim` (restricted to the ASCII whitespace that can
actually occur in a token: tabs are separators and newlines are removed
before tokenisation). -/
def trimChars (l : List Char) : List Char :=
  ((l.dropWhile Char.isWhitespace).reverse.dropWhile Char.isWhitespace).reverse

/-- Leftmost occurrence search for the `regex::Regex::captures` call on the
unanchored pattern `"Teaching Wk(.*)"`: returns the characters after the
first occurrence of `m`. -/
def findAfterMarker (m : List Char) : List Char → Option (List Char)
  | [] => if m.isPrefixOf ([] : List Char) then some [] else none
  | c :: t =>
    if m.isPrefixOf (c :: t) then some ((c :: t).drop m.length)
    else findAfterMarker m t

/-- Value of an ASCII digit string (most significant first). -/
def digitsVal (l : List Char) : Nat :=
  l.foldl (fun a c => 10 * a + (c.toNat - 48)) 0

/-- The optional leading sign accepted by Rust's `u32` parser. -/
def stripPlus : List Char → List Char
  | '+' :: rest => rest
  | l => l

/-- Model of Rust's `str::parse::<u32>()`: an optional leading `'+'`, then a
nonempty run of ASCII digits whose value fits in 32 bits. -/
def parseU32 (l : List Char) : Option Nat :=
  if stripPlus l ≠ [] ∧ (∀ c ∈ stripPlus l, c.isDigit) ∧ digitsVal (stripPlus l) < 2 ^ 32
  then some (digitsVal (stripPlus l))
  else none

/-! ## Weekday parsing (chrono `impl FromStr for Weekday`)

The source parses column 11 with `row[11].parse::<Weekday>()`.  chrono's
scanner matches the first three bytes case-insensitively (by OR-ing each byte
with 32) against the short weekday names, then optionally consumes the rest
of the long name using an ASCII-case-insensitive comparison, and accepts iff
the whole input is consumed.  We model the bytes by character code points;
this coincides with the source for ASCII tokens. -/

inductive Weekday where
  | mon | tue | wed | thu | fri | sat | sun
  deriving DecidableEq, Repr

/-- `Weekday::num_days_from_monday` (also the `Weekday as u32` discriminant). -/
def Weekday.numFromMonday : Weekday → Nat
  | .mon => 0 | .tue => 1 | .wed => 2 | .thu => 3 | .fri => 4 | .sat => 5 | .sun => 6

/-- `Weekday::number_from_sunday` (1-based, used only in an error message). -/
def Weekday.numberFromSunday : Weekday → Nat
  | .sun => 1 | .mon => 2 | .tue => 3 | .wed => 4 | .thu => 5 | .fri => 6 | .sat => 7

/-- chrono's per-byte case folding used by `scan::equals`: ASCII `A`-`Z`
mapped down by 32, everything else unchanged. -/
def lowB (n : Nat) : Nat := if 65 ≤ n ∧ n ≤ 90 then n + 32 else n

/-- First stage of chrono's `scan::short_weekday`: match three bytes, each
OR-ed with 32, against the lowercase short names. -/
def shortWd (a b c : Nat) : Option Weekday :=
  if a = 109 ∧ b = 111 ∧ c = 110 then some .mon
  else if a = 116 ∧ b = 117 ∧ c = 101 then some .tue
  else if a = 119 ∧ b = 101 ∧ c = 100 then some .wed
  else if a = 116 ∧ b = 104 ∧ c = 117 then some .thu
  else if a = 102 ∧ b = 114 ∧ c = 105 then some .fri
  else if a = 115 ∧ b = 97 ∧ c = 116 then some .sat
  else if a = 115 ∧ b = 117 ∧ c = 110 then some .sun
  else none

/-- chrono's `LONG_WEEKDAY_SUFFIXES`, indexed by `num_days_from_monday`. -/
def wdSuffix : Weekday → List Nat
  | .mon => [100, 97, 121]                      -- "day"
  | .tue => [115, 100, 97, 121]                 -- "sday"
  | .wed => [110, 101, 115, 100, 97, 121]       -- "nesday"
  | .thu => [114, 115, 100, 97, 121]            -- "rsday"
  | .fri => [100, 97, 121]                      -- "day"
  | .sat => [117, 114, 100, 97, 121]            -- "urday"
  | .sun => [100, 97, 121]                      -- "day"

/-- chrono's `scan::equals`: ASCII-case-insensitive byte-sequence equality. -/
def eqCI (s pat : List Nat) : Prop := s.map lowB = pat.map lowB

instance (s pat : List Nat) : Decidable (eqCI s pat) :=
  inferInstanceAs (Decidable (s.map lowB = pat.map lowB))

/-- chrono's `Weekday` parser (`scan::short_or_long_weekday` followed by the
check that the whole string was consumed), on byte values. -/
def weekdayFromBytes (s : List Nat) : Option Weekday :=
  match s with
  | a :: b :: c :: rest =>
    match shortWd (a ||| 32) (b ||| 32) (c ||| 32) with
    | none => none
    | some wd =>
      if (if (wdSuffix wd).length ≤ rest.length ∧
            eqCI (rest.take (wdSuffix wd).length) (wdSuffix wd)
          then rest.drop (wdSuffix wd).length else rest) = []
      then some wd else none
  | _ => none

/-- `row[11].parse::<Weekday>()` on a character-list token. -/
def parse_weekday (s : List Char) : Option Weekday :=
  weekdayFromBytes (s.map Char.toNat)

/-! ## Calendar model (chrono `NaiveDate`)

A date is represented by chrono's internal pair of a year and a 1-based
ordinal day (`CalDate`), or — when only day arithmetic matters — by the
absolute day number counting 0000-01-01 (proleptic Gregorian) as day 1. -/

def isLeap (y : Nat) : Bool := (y % 4 == 0 && y % 100 != 0) || y % 400 == 0

def daysInYear (y : Nat) : Nat := if isLeap y then 366 else 365

/-- Number of leap years among `0, 1, ..., y - 1`. -/
def leapsBefore (y : Nat) : Nat := (y + 3) / 4 - (y + 99) / 100 + (y + 399) / 400

/-- Absolute day number of January 1 of year `y`, minus one. -/
def daysBeforeYear (y : Nat) : Nat := 365 * y + leapsBefore y

def monthLens (leap : Bool) : List Nat :=
  [31, if leap then 29 else 28, 31, 30, 31, 30, 31, 31, 30, 31, 30, 31]

/-- Days strictly before month `m` (1-based) in a year with leap flag `leap`. -/
def daysBeforeMonth (leap : Bool) (m : Nat) : Nat := ((monthLens leap).take (m - 1)).sum

/-- Validity of a (year, month, day) triple: `NaiveDate::from_ymd_opt`
succeeds exactly on these (within chrono's year range). -/
def ValidYmd (y m d : Nat) : Prop :=
  1 ≤ m ∧ m ≤ 12 ∧ 1 ≤ d ∧ d ≤ (monthLens (isLeap y)).getD (m - 1) 0

instance (y m d : Nat) : Decidable (ValidYmd y m d) :=
  inferInstanceAs (Decidable (1 ≤ m ∧ m ≤ 12 ∧ 1 ≤ d ∧ d ≤ (monthLens (isLeap y)).getD (m - 1) 0))

def ordOfYmd (y m d : Nat) : Nat := daysBeforeMonth (isLeap y) m + d

def absOfYmd (y m d : Nat) : Nat := daysBeforeYear y + ordOfYmd y m d

/-- chrono `NaiveDate`: calendar year plus 1-based ordinal day of the year. -/
structure CalDate where
  year : Nat
  ord : Nat
  deriving DecidableEq, Repr

def CalDate.abs (d : CalDate) : Nat := daysBeforeYear d.year + d.ord

def CalDate.Valid (d : CalDate) : Prop := 1 ≤ d.ord ∧ d.ord ≤ daysInYear d.year

instance (d : CalDate) : Decidable d.Valid :=
  inferInstanceAs (Decidable (1 ≤ d.ord ∧ d.ord ≤ daysInYear d.year))

/-- Days-from-Monday index of an absolute day (0 = Monday .. 6 = Sunday);
0001-01-01 (absolute day 367) was a Monday. -/
def dowOfAbs (a : Nat) : Nat := (a + 4) % 7

def wdOfNum (n : Nat) : Weekday :=
  [Weekday.mon, .tue, .wed, .thu, .fri, .sat, .sun].getD (n % 7) .mon

def weekdayOfAbs (a : Nat) : Weekday := wdOfNum (dowOfAbs a)

/-- Number of ISO weeks in ISO year `y` (chrono `YearFlags::nisoweeks`):
53 iff January 1 is a Thursday, or a Wednesday in a leap year. -/
def nisoweeks (y : Nat) : Nat :=
  if dowOfAbs (absOfYmd y 1 1) = 3 ∨ (isLeap y ∧ dowOfAbs (absOfYmd y 1 1) = 2)
  then 53 else 52

/-- Unadjusted ISO week index of a date (0 means: last week of the previous
ISO year; one past `nisoweeks` means: week 1 of the next ISO year). -/
def isoWeekRaw (d : CalDate) : Nat := (d.ord + 10 - (dowOfAbs d.abs + 1)) / 7

/-- `NaiveDate::iso_week().week()`. -/
def isoWeekNum (d : CalDate) : Nat :=
  if isoWeekRaw d = 0 then nisoweeks (d.year - 1)
  else if nisoweeks d.year < isoWeekRaw d then 1 else isoWeekRaw d

/-- Modelled from the spec: the ISO week-date year (`iso_week().year()`),
which the spec's event-expansion step 1 names "the ISO calendar year"; the
source instead uses `Datelike::year`, the plain calendar year. -/
def isoYearSpec (d : CalDate) : Nat :=
  if isoWeekRaw d = 0 then d.year - 1
  else if nisoweeks d.year < isoWeekRaw d then d.year + 1 else d.year

/-- Absolute day of the Monday of ISO week 1 of ISO year `y` (the week
containing January 4). -/
def isoWeek1Monday (y : Nat) : Nat :=
  absOfYmd y 1 4 - dowOfAbs (absOfYmd y 1 4)

/-- Absolute day number of chrono's `NaiveDate::MAX` (December 31, 262143);
`checked_add_days` fails beyond it. -/
def MAXABS : Nat := daysBeforeYear 262144

/-- `NaiveDate::from_isoywd_opt` (returning the absolute day): defined for
week numbers `1 ..= nisoweeks y` (and within chrono's date range). -/
def from_isoywd_abs (y w : Nat) (wd : Weekday) : Option Nat :=
  if 1 ≤ w ∧ w ≤ nisoweeks y then
    if isoWeek1Monday y + 7 * (w - 1) + wd.numFromMonday ≤ MAXABS
    then some (isoWeek1Monday y + 7 * (w - 1) + wd.numFromMonday)
    else none
  else none

/-! ## Times and periods -/

/-- `NaiveTime` built by `from_hms_opt(h, m, 0)`. -/
structure TimeOfDay where
  hour : Nat
  minute : Nat
  deriving DecidableEq, Repr

def TimeOfDay.secs (t : TimeOfDay) : Nat := t.hour * 3600 + t.minute * 60

/-- `Period { start, end }` (the `end` field is called `stop` here because
`end` is a Lean keyword). -/
structure Period where
  start : TimeOfDay
  stop : TimeOfDay
  deriving DecidableEq, Repr

def digVal (c : Char) : Nat := c.toNat - 48

/-- `parse_period`: the token must match `^(\d\d)(\d\d)to(\d\d)(\d\d)$` and
both `HHMM` pairs must pass `NaiveTime::from_hms_opt(h, m, 0)`.  (The source
regex's `\d` is modelled as the ASCII digits that `str::parse::<u32>` then
accepts.) -/
def parse_period (t : List Char) : Option Period :=
  match t with
  | [a, b, c, d, e, f, g, h, i, j] =>
    if a.isDigit ∧ b.isDigit ∧ c.isDigit ∧ d.isDigit ∧ e = 't' ∧ f = 'o'
        ∧ g.isDigit ∧ h.isDigit ∧ i.isDigit ∧ j.isDigit then
      if 10 * digVal a + digVal b < 24 ∧ 10 * digVal c + digVal d < 60 then
        if 10 * digVal g + digVal h < 24 ∧ 10 * digVal i + digVal j < 60 then
          some { start := ⟨10 * digVal a + digVal b, 10 * digVal c + digVal d⟩,
                 stop := ⟨10 * digVal g + digVal h, 10 * digVal i + digVal j⟩ }
        else none
      else none
    else none
  | _ => none

/-! ## `parse_weeks` -/

def markerChars : List Char := "Teaching Wk".toList

/-- One comma-separated entry of the week list.  `none` models a panic: the
source calls `.unwrap()` on `str::parse::<u32>` for entries that do not match
`^([0-9]+)-([0-9]+)$`, and a range bound at `u32::MAX` overflows in
`(start..end + 1)`. -/
def expandPiece (p : List Char) : Option (List Nat) :=
  match splitSep '-' p with
  | [a, b] =>
    if a ≠ [] ∧ b ≠ [] ∧ (∀ c ∈ a, c.isDigit) ∧ (∀ c ∈ b, c.isDigit) then
      if digitsVal a < 2 ^ 32 ∧ digitsVal b + 1 < 2 ^ 32 then
        some (List.range' (digitsVal a) (digitsVal b + 1 - digitsVal a))
      else none
    else (parseU32 p).map (fun v => [v])
  | _ => (parseU32 p).map (fun v => [v])

def processPieces : List (List Char) → Option (List Nat)
  | [] => some []
  | p :: ps =>
    match expandPiece p with
    | none => none
    | some ws =>
      match processPieces ps with
      | none => none
      | some rest => some (ws ++ rest)

/-- The recess-week remap `|w| if w < recess_week { w } else { w + 1 }`;
`none` models the u32 overflow panic at `w = u32::MAX`. -/
def remapWeeks (recess : Nat) (ws : List Nat) : Option (List Nat) :=
  if ∀ w ∈ ws, w < recess ∨ w + 1 < 2 ^ 32 then
    some (ws.map (fun w => if w < recess then w else w + 1))
  else none

/-- `parse_weeks`: find the unanchored marker `Teaching Wk`, capture the rest
of the line, split it on commas, expand every entry, then apply the recess
remap.  `.err` is the `ParseWeeksError` return; `.panic` the `unwrap` aborts. -/
def parse_weeks (tok : List Char) (recess : Nat) : RRes Unit (List Nat) :=
  match findAfterMarker markerChars tok with
  | none => .err ()
  | some rest =>
    match processPieces (splitSep ',' (rest.takeWhile (fun c => c ≠ '\n'))) with
    | none => .panic
    | some ws =>
      match remapWeeks recess ws with
      | none => .panic
      | some ws' => .ok ws'

/-! ## `parse_exam` -/

/-- Match one candidate position of the source's exam regex
`(\d{2})-([A-Z][a-z]{2})-([0-9]{4}) (\d{2})(\d{2})to(\d{2})(\d{2})`
(a fixed-width 22-character pattern); returns (day, month name, year,
start hour, start minute, end hour, end minute). -/
def matchExamWindow (w : List Char) :
    Option (Nat × List Char × Nat × Nat × Nat × Nat × Nat) :=
  match w with
  | [d1, d2, h1, m1, m2, m3, h2, y1, y2, y3, y4, sp,
     s1, s2, s3, s4, t1, t2, e1, e2, e3, e4] =>
    if d1.isDigit ∧ d2.isDigit ∧ h1 = '-'
        ∧ (65 ≤ m1.toNat ∧ m1.toNat ≤ 90) ∧ (97 ≤ m2.toNat ∧ m2.toNat ≤ 122)
        ∧ (97 ≤ m3.toNat ∧ m3.toNat ≤ 122) ∧ h2 = '-'
        ∧ y1.isDigit ∧ y2.isDigit ∧ y3.isDigit ∧ y4.isDigit ∧ sp = ' '
        ∧ s1.isDigit ∧ s2.isDigit ∧ s3.isDigit ∧ s4.isDigit
        ∧ t1 = 't' ∧ t2 = 'o'
        ∧ e1.isDigit ∧ e2.isDigit ∧ e3.isDigit ∧ e4.isDigit then
      some (10 * digVal d1 + digVal d2, [m1, m2, m3],
            digitsVal [y1, y2, y3, y4],
            10 * digVal s1 + digVal s2, 10 * digVal s3 + digVal s4,
            10 * digVal e1 + digVal e2, 10 * digVal e3 + digVal e4)
    else none
  | _ => none

/-- Leftmost-match search of the exam pattern over the token. -/
def findExamMatch : List Char → Option (Nat × List Char × Nat × Nat × Nat × Nat × Nat)
  | [] => none
  | c :: t =>
    match matchExamWindow ((c :: t).take 22) with
    | some r => some r
    | none => findExamMatch t

/-- chrono `Month::from_str` restricted to the `[A-Z][a-z]{2}` strings the
regex can capture: exactly the twelve title-case short names parse. -/
def monthNum (m : List Char) : Option Nat :=
  if m = "Jan".toList then some 1 else if m = "Feb".toList then some 2
  else if m = "Mar".toList then some 3 else if m = "Apr".toList then some 4
  else if m = "May".toList then some 5 else if m = "Jun".toList then some 6
  else if m = "Jul".toList then some 7 else if m = "Aug".toList then some 8
  else if m = "Sep".toList then some 9 else if m = "Oct".toList then some 10
  else if m = "Nov".toList then some 11 else if m = "Dec".toList then some 12
  else none

/-- `Exam { date, peroid }` (the source misspells the field `peroid`);
the date is stored as an absolute day number. -/
structure Exam where
  date : Nat
  peroid : Period
  deriving DecidableEq, Repr

/-- `parse_exam`: regex capture, month lookup, `NaiveDate::from_ymd_opt`
validity, then the two `NaiveTime::from_hms_opt` checks. -/
def parse_exam (tok : List Char) : Option Exam :=
  match findExamMatch tok with
  | none => none
  | some (day, mon, year, sh, sm, eh, em) =>
    match monthNum mon with
    | none => none
    | some m =>
      if ValidYmd year m day then
        if sh < 24 ∧ sm < 60 then
          if eh < 24 ∧ em < 60 then
            some { date := absOfYmd year m day,
                   peroid := { start := ⟨sh, sm⟩, stop := ⟨eh, em⟩ } }
          else none
        else none
      else none

/-! ## The table parser (`Course::parse_from_table`) -/

structure Class where
  weekday : Weekday
  period : Period
  venue : List Char
  group : List Char
  weeks : List Nat
  class_type : List Char
  deriving DecidableEq, Repr

structure Course where
  code : List Char
  title : List Char
  au : List Char
  course_type : List Char
  index : List Char
  status : List Char
  classes : List Class
  exam : Option Exam
  deriving DecidableEq, Repr

/-- `ParseTableError`.  `missingValues` carries the formatted message string
(claim C6 is about its contents); `unknownCourse` carries the offending class
(the source formats it into the message with `{:#?}`). -/
inductive ParseTableError where
  | missingValues (msg : List Char)
  | unknownCourse (cls : Class)
  | other
  deriving DecidableEq, Repr

/-- `Course::new`: all six header fields must be non-empty. -/
def courseNew (code title au course_type index status : List Char) : Option Course :=
  if code = [] ∨ title = [] ∨ au = [] ∨ course_type = [] ∨ index = [] ∨ status = [] then
    none
  else
    some { code := code, title := title, au := au, course_type := course_type,
           index := index, status := status, classes := [], exam := none }

def natChars (n : Nat) : List Char := (Nat.repr n).toList

/-- The `MissingValues` message; the source fills the `expected` slot with
`row.len()` and the `found` slot with `NUM_COLUMNS` (= 16). -/
def missingMsg (i rowLen : Nat) : List Char :=
  "Missing columns from table on line ".toList ++ natChars i
    ++ ", expected ".toList ++ natChars rowLen
    ++ ", found ".toList ++ natChars 16

/-- Record step 1 (`// Create new course if info exists`): push a new
course when `Course::new(row[0], row[1], row[2], row[3], row[6], row[7])`
succeeds.  The accumulator is the course list in reverse order: its head is
the source's `courses.last_mut()`. -/
def headerStep (row : List (List Char)) (acc : List Course) : List Course :=
  match courseNew (row.getD 0 []) (row.getD 1 []) (row.getD 2 [])
      (row.getD 3 []) (row.getD 6 []) (row.getD 7 []) with
  | some c => c :: acc
  | none => acc

/-- Record step 2 (`// Has exam info`): when column 15 is non-empty and not
"Not Applicable", parse it and attach it to the current course — but only
if a current course exists. -/
def examStep (row : List (List Char)) (acc : List Course) :
    RRes ParseTableError (List Course) :=
  if row.getD 15 [] ≠ [] ∧ row.getD 15 [] ≠ "Not Applicable".toList then
    match acc with
    | cur :: done =>
      match parse_exam (row.getD 15 []) with
      | none => .err .other
      | some e => .ok ({ cur with exam := some e } :: done)
    | [] => .ok acc
  else .ok acc

/-- Record steps 3-4: skip when the class-type column 9 is empty, otherwise
parse the weekday, period and weeks columns, build the `Class`, and append
it to the current course — failing with `UnknownCourse` when there is
none. -/
def classStep (recess : Nat) (row : List (List Char)) (acc : List Course) :
    RRes ParseTableError (List Course) :=
  if row.getD 9 [] = [] then .ok acc
  else
    match parse_weekday (row.getD 11 []) with
    | none => .err .other
    | some wd =>
      match parse_period (row.getD 12 []) with
      | none => .err .other
      | some per =>
        match parse_weeks (row.getD 14 []) recess with
        | .err _ => .err .other
        | .panic => .panic
        | .ok ws =>
          let cls : Class :=
            { weekday := wd, period := per, venue := row.getD 13 [],
              group := row.getD 10 [], weeks := ws, class_type := row.getD 9 [] }
          match acc with
          | cur :: done => .ok ({ cur with classes := cur.classes ++ [cls] } :: done)
          | [] => .err (.unknownCourse cls)

/-- One 16-token record, folded into the course accumulator. -/
def parseRow (recess : Nat) (row : List (List Char)) (acc : List Course) :
    RRes ParseTableError (List Course) :=
  match examStep row (headerStep row acc) with
  | .err e => .err e
  | .panic => .panic
  | .ok acc2 => classStep recess row acc2

/-- The record loop of `parse_from_table`: each chunk is trimmed tokenwise,
its width checked against 16, and folded through `parseRow`. -/
def parseRows (recess : Nat) : Nat → List Course → List (List (List Char)) →
    RRes ParseTableError (List Course)
  | _, acc, [] => .ok acc.reverse
  | i, acc, chunk :: rest =>
    if (chunk.map trimChars).length ≠ 16 then
      .err (.missingValues (missingMsg i (chunk.map trimChars).length))
    else
      match parseRow recess (chunk.map trimChars) acc with
      | .err e => .err e
      | .panic => .panic
      | .ok acc' => parseRows recess (i + 1) acc' rest

/-- `Course::parse_from_table`: strip newlines, split on tabs, chunk into
records of 16 tokens, and fold. -/
def parse_from_table (table : List Char) (recess : Nat) :
    RRes ParseTableError (List Course) :=
  parseRows recess 0 [] (chunksOf 16 (splitSep '\t' (table.filter (fun c => c ≠ '\n'))))

/-! ## The event expander (`src/cal.rs`)

The modelled event record omits the nondeterministic `Uuid::new_v4()`
identifier and `Utc::now()` creation stamp; instants are seconds since the
model's epoch, already converted to UTC. -/

structure EventM where
  summary : List Char
  dtstart : Int
  dtend : Int
  category : List Char
  location : Option (List Char)
  deriving DecidableEq, Repr

/-- `convert_naive_to_utc_datetime` applied to a date at a time of day:
interpret the pair as wall-clock time at the fixed offset (seconds east),
yielding a UTC instant. -/
def utcInstant (dayAbs : Nat) (t : TimeOfDay) (off : Int) : Int :=
  (dayAbs : Int) * 86400 + (t.secs : Int) - off

/-- The event emitted for week `w` of a class whose first occurrence is on
absolute day `fd`. -/
def weekEvent (code title : List Char) (cl : Class) (off : Int) (fd w : Nat) : EventM :=
  { summary := code ++ " - ".toList ++ title ++ " ".toList ++ cl.class_type
  , dtstart := utcInstant (fd + 7 * (w - 1)) cl.period.start off
  , dtend := utcInstant (fd + 7 * (w - 1)) cl.period.stop off
  , category := cl.class_type
  , location := some cl.venue }

/-- The week loop inside `generate_class_events`.  `(w - 1) as u64 * 7`
underflows for `w = 0`, and `checked_add_days(..).unwrap()` panics past
chrono's maximum date: both are `.panic`. -/
def weeksGo (code title : List Char) (cl : Class) (off : Int) (fd : Nat) :
    List Nat → RRes Unit (List EventM)
  | [] => .ok []
  | w :: ws =>
    if w = 0 ∨ MAXABS < fd + 7 * (w - 1) then .panic
    else
      match weeksGo code title cl off fd ws with
      | .ok es => .ok (weekEvent code title cl off fd w :: es)
      | r => r

/-- `generate_class_events`: resolve the first occurrence through
`NaiveDate::from_isoywd_opt(semester_start_date.year(), semester_start_date.iso_week().week(), class.weekday)`
— note the plain calendar year — then emit one event per listed week.
`.err` is the `DateTimeError` return. -/
def generate_class_events (code title : List Char) (cl : Class)
    (ssd : CalDate) (off : Int) : RRes Unit (List EventM) :=
  match from_isoywd_abs ssd.year (isoWeekNum ssd) cl.weekday with
  | none => .err ()
  | some fd => weeksGo code title cl off fd cl.weeks

/-- `generate_exam_event` (total). -/
def generate_exam_event (code title : List Char) (e : Exam) (off : Int) : EventM :=
  { summary := code ++ " - ".toList ++ title ++ " Exam".toList
  , dtstart := utcInstant e.date e.peroid.start off
  , dtend := utcInstant e.date e.peroid.stop off
  , category := "Exam".toList
  , location := none }

/-- The class loop of `generate_events`; the source calls `.unwrap()` on the
result of `generate_class_events`, so its `Err` becomes a panic here. -/
def classesGo (c : Course) (ssd : CalDate) (off : Int) :
    List Class → RRes Unit (List EventM)
  | [] => .ok []
  | cl :: cls =>
    match generate_class_events c.code c.title cl ssd off with
    | .ok evs =>
      match classesGo c ssd off cls with
      | .ok rest => .ok (evs ++ rest)
      | r => r
    | _ => .panic

/-- All events of one course: its class events followed by its exam event. -/
def courseEvents (c : Course) (ssd : CalDate) (off : Int) : RRes Unit (List EventM) :=
  match classesGo c ssd off c.classes with
  | .ok evs =>
    .ok (evs ++ (match c.exam with
                 | some e => [generate_exam_event c.code c.title e off]
                 | none => []))
  | r => r

/-- `generate_events`: course-by-course loop. -/
def generate_events : List Course → CalDate → Int → RRes Unit (List EventM)
  | [], _, _ => .ok []
  | c :: cs, ssd, off =>
    match courseEvents c ssd off with
    | .ok evs =>
      match generate_events cs ssd off with
      | .ok rest => .ok (evs ++ rest)
      | r => r
    | r => r

/-! ## Concrete fixtures used by the claim theorems -/

/-- A table whose single (final) chunk has 15 tokens. -/
def shortTable : List Char := "a\tb\tc\td\te\tf\tg\th\ti\tj\tk\tl\tm\tn\to".toList

/-- A 16-column record whose only non-empty token is a well-formed exam
string in column 15 (no course header, no class type). -/
def examOnlyTable : List Char :=
  "\t\t\t\t\t\t\t\t\t\t\t\t\t\t\t01-Dec-2023 0900to1100".toList

/-- A complete course-plus-class record whose week list is
`Teaching Wk3,0`. -/
def unsortedWeeksTable : List Char :=
  ("AB1234\tTitle X\t3.0\tCORE\t\t\t10001\tREGISTERED\t\tLEC\tL1\tMon\t0830to0930\tLT1\tTeaching Wk3,0\tNot Applicable").toList

/-- The class parsed from `unsortedWeeksTable` (recess week 8). -/
def unsortedWeeksClass : Class :=
  { weekday := .mon, period := { start := ⟨8, 30⟩, stop := ⟨9, 30⟩ },
    venue := "LT1".toList, group := "L1".toList, weeks := [3, 0],
    class_type := "LEC".toList }

/-- The course parsed from `unsortedWeeksTable` (recess week 8). -/
def unsortedWeeksCourse : Course :=
  { code := "AB1234".toList, title := "Title X".toList, au := "3.0".toList,
    course_type := "CORE".toList, index := "10001".toList,
    status := "REGISTERED".toList, classes := [unsortedWeeksClass], exam := none }

/-- A Monday class meeting in week 1. -/
def mondayClass : Class :=
  { weekday := .mon, period := { start := ⟨8, 30⟩, stop := ⟨9, 30⟩ },
    venue := "LT1".toList, group := "L1".toList, weeks := [1],
    class_type := "LEC".toList }

/-- A course holding just `mondayClass`. -/
def mondayCourse : Course :=
  { code := "AB1234".toList, title := "T".toList, au := "3".toList,
    course_type := "CORE".toList, index := "10001".toList,
    status := "REGISTERED".toList, classes := [mondayClass], exam := none }

/-- A course with a two-week Monday class and an exam. -/
def examCourse : Course :=
  { code := "AB1234".toList, title := "T".toList, au := "3".toList,
    course_type := "CORE".toList, index := "10001".toList,
    status := "REGISTERED".toList,
    classes := [{ mondayClass with weeks := [1, 3] }],
    exam := some { date := absOfYmd 2023 12 1,
                   peroid := { start := ⟨9, 0⟩, stop := ⟨11, 0⟩ } } }

/-! ## C4 -/

/-- C4: the claim says that when a class's (year, week, weekday) triple
cannot be resolved, `generate_events` fails by reporting a
`DateResolutionError` value to the caller.  In fact `generate_events`
calls `.unwrap()` on the failing `generate_class_events` result and the
process aborts with a panic; no error value reaches the caller.  Witnessed
at semester start 2021-01-01 (ISO week 53, while calendar year 2021 has
only 52 ISO weeks): `generate_class_events` returns the error, but
`generate_events` turns it into a panic. -/
theorem c4_generate_events_panics_on_unresolvable_class :
    generate_events [mondayCourse] ⟨2021, 1⟩ 0 = .panic ∧
      generate_class_events mondayCourse.code mondayCourse.title mondayClass
        ⟨2021, 1⟩ 0 = .err () := by
  constructor <;> decide

/-! ## C5 -/

/-- C5: the claim says `parse_weeks` returns a `FieldFormatError` whenever
some list entry is neither a bare integer nor a valid range.  In fact the
source calls `.unwrap()` on `str::parse::<u32>` for such entries, so
`parse_weeks("Teaching Wka", 8)` panics instead of returning the error;
only a missing `Teaching Wk` marker produces the error value. -/
theorem c5_parse_weeks_panics_on_bad_entry :
    parse_weeks ("Teaching Wka".toList) 8 = .panic ∧
      parse_weeks ("no marker 1,2".toList) 8 = .err () := by
  constructor <;> decide

/-! ## C6 -/

/-- C6: on a final chunk of 15 tokens the parse does fail with
`MissingValues` carrying the chunk index, but the message swaps the two
widths: the source formats `expected {row.len()}, found {NUM_COLUMNS}`, so
the message reads "expected 15, found 16" although 16 columns were expected
and 15 were found. -/
theorem c6_missing_values_message_swaps_expected_found :
    parse_from_table shortTable 3 =
      .err (.missingValues
        ("Missing columns from table on line 0, expected 15, found 16".toList)) := by
  decide

/-! ## Tokenisation lemmas -/

theorem splitSep_ne_nil (sep : Char) (l : List Char) : splitSep sep l ≠ [] := by
  cases l with
  | nil => simp [splitSep]
  | cons c t =>
    simp only [splitSep]
    split
    · simp
    · split <;> simp

theorem splitSep_cons_sep (sep : Char) (t : List Char) :
    splitSep sep (sep :: t) = [] :: splitSep sep t := by
  simp only [splitSep]
  cases h : splitSep sep t with
  | nil => exact absurd h (splitSep_ne_nil sep t)
  | cons p ps => simp

theorem splitSep_cons_ne (sep c : Char) (t : List Char) (hc : c ≠ sep) :
    splitSep sep (c :: t) =
      (c :: (splitSep sep t).headI) :: (splitSep sep t).tail := by
  simp only [splitSep]
  cases h : splitSep sep t with
  | nil => exact absurd h (splitSep_ne_nil sep t)
  | cons p ps => simp [hc]

theorem splitSep_append_sep (sep : Char) (p t : List Char) (hp : sep ∉ p) :
    splitSep sep (p ++ sep :: t) = p :: splitSep sep t := by
  induction p with
  | nil => simpa using splitSep_cons_sep sep t
  | cons c p ih =>
    simp only [List.mem_cons, not_or] at hp
    have hc : c ≠ sep := fun h => hp.1 h.symm
    have := ih hp.2
    rw [List.cons_append, splitSep_cons_ne sep c _ hc, this]
    simp

theorem splitSep_eq_single (sep : Char) (p : List Char) (hp : sep ∉ p) :
    splitSep sep p = [p] := by
  induction p with
  | nil => simp [splitSep]
  | cons c p ih =>
    simp only [List.mem_cons, not_or] at hp
    have hc : c ≠ sep := fun h => hp.1 h.symm
    rw [splitSep_cons_ne sep c _ hc, ih hp.2]
    simp

theorem splitSep_joinSep (sep : Char) (ps : List (List Char)) (hne : ps ≠ [])
    (hp : ∀ p ∈ ps, sep ∉ p) : splitSep sep (joinSep sep ps) = ps := by
  induction ps with
  | nil => exact absurd rfl hne
  | cons p qs ih =>
    cases qs with
    | nil => exact splitSep_eq_single sep p (hp p (by simp))
    | cons q r =>
      rw [joinSep, splitSep_append_sep sep p _ (hp p (by simp)),
        ih (by simp) (fun x hx => hp x (by simp [hx]))]

theorem mem_joinSep (sep : Char) (ps : List (List Char)) (c : Char)
    (hc : c ∈ joinSep sep ps) : c = sep ∨ ∃ p ∈ ps, c ∈ p := by
  induction ps with
  | nil => simp [joinSep] at hc
  | cons p qs ih =>
    cases qs with
    | nil =>
      simp only [joinSep] at hc
      exact Or.inr ⟨p, by simp, hc⟩
    | cons q r =>
      rw [joinSep, List.mem_append] at hc
      rcases hc with h | h
      · exact Or.inr ⟨p, by simp, h⟩
      · rcases List.mem_cons.mp h with h | h
        · exact Or.inl h
        · rcases ih h with h | ⟨x, hx, hcx⟩
          · exact Or.inl h
          · exact Or.inr ⟨x, by simp [List.mem_cons.mp hx], hcx⟩

theorem chunksOf_sixteen (l : List (List Char)) (h : l.length = 16) :
    chunksOf 16 l = [l] := by
  cases l with
  | nil => simp at h
  | cons x xs =>
    rw [chunksOf, h]
    show (x :: xs).take 16 :: chunksOfGo 16 15 ((x :: xs).drop 16) = [x :: xs]
    rw [List.take_of_length_le (by omega), List.drop_eq_nil_of_le (by omega)]
    rfl

/-! ## C7 -/

/-- C7 counterexample: a 16-column record carrying a well-formed exam string
in column 15, encountered before any course header, does NOT make
`parse_from_table` fail with `UnknownCourseError` — the parse succeeds and
the exam is silently dropped (the source only attaches the exam inside
`if let Some(current_course) = courses.last_mut()`). -/
theorem c7_exam_before_header_is_ignored :
    parse_from_table examOnlyTable 3 = .ok [] := by
  decide

/-- C7 amended: an exam-bearing record (column 15 non-empty and not
"Not Applicable") encountered before any course header is silently ignored:
for any such single-record table with incomplete header fields and no class
type, `parse_from_table` succeeds with an empty course list.  Only class
records (non-empty class type) raise `UnknownCourse` before a header. -/
theorem c7_amended_exam_before_header_skipped
    (recess : Nat) (f0 f1 f2 f3 f4 f5 f6 f7 f8 f9 f10 f11 f12 f13 f14 f15 : List Char)
    (hclean : ∀ f ∈ [f0, f1, f2, f3, f4, f5, f6, f7, f8, f9, f10, f11, f12, f13, f14, f15],
      ∀ c ∈ f, c ≠ '\t' ∧ c ≠ '\n')
    (htrim : ∀ f ∈ [f0, f1, f2, f3, f4, f5, f6, f7, f8, f9, f10, f11, f12, f13, f14, f15],
      trimChars f = f)
    (hhdr : f0 = [] ∨ f1 = [] ∨ f2 = [] ∨ f3 = [] ∨ f6 = [] ∨ f7 = [])
    (hexam : f15 ≠ [] ∧ f15 ≠ "Not Applicable".toList)
    (hcls : f9 = []) :
    parse_from_table
      (joinSep '\t' [f0, f1, f2, f3, f4, f5, f6, f7, f8, f9, f10, f11, f12, f13, f14, f15])
      recess = .ok [] := by
  set fs : List (List Char) :=
    [f0, f1, f2, f3, f4, f5, f6, f7, f8, f9, f10, f11, f12, f13, f14, f15] with hfs
  have hnotab : ∀ p ∈ fs, '\t' ∉ p := by
    intro p hp hc
    exact (hclean p hp '\t' hc).1 rfl
  have hfilter : (joinSep '\t' fs).filter (fun c => c ≠ '\n') = joinSep '\t' fs := by
    rw [List.filter_eq_self]
    intro a ha
    rcases mem_joinSep '\t' fs a ha with h | ⟨p, hp, hap⟩
    · simp [h]
    · simpa using (hclean p hp a hap).2
  have hsplit : splitSep '\t' (joinSep '\t' fs) = fs :=
    splitSep_joinSep '\t' fs (by simp [hfs]) hnotab
  have hchunk : chunksOf 16 fs = [fs] := chunksOf_sixteen fs (by simp [hfs])
  rw [parse_from_table, hfilter, hsplit, hchunk]
  have hmap : fs.map trimChars = fs := by
    conv_rhs => rw [← List.map_id fs]
    exact List.map_congr_left htrim
  rw [parseRows, hmap]
  have hlen : fs.length = 16 := by simp [hfs]
  rw [if_neg (by omega)]
  have hnew : courseNew (fs.getD 0 []) (fs.getD 1 []) (fs.getD 2 [])
      (fs.getD 3 []) (fs.getD 6 []) (fs.getD 7 []) = none := by
    rw [courseNew, if_pos]
    simpa [hfs] using hhdr
  have hget15 : fs.getD 15 [] = f15 := by simp [hfs]
  have hget9 : fs.getD 9 [] = f9 := by simp [hfs]
  have h1 : headerStep fs [] = [] := by rw [headerStep, hnew]
  have h2 : examStep fs [] = .ok [] := by
    rw [examStep, hget15, if_pos hexam]
  have h3 : classStep recess fs [] = .ok [] := by
    rw [classStep, hget9, if_pos hcls]
  rw [parseRow, h1, h2]
  simp only [h3]
  rfl

/-- C7 amended, witness at a concrete exam-only record. -/
theorem c7_amended_witness :
    parse_from_table
      (joinSep '\t' [[], [], [], [], [], [], [], [], [], [], [], [], [], [],
        [], "01-Dec-2023 0900to1100".toList]) 3 = .ok [] :=
  c7_amended_exam_before_header_skipped 3 [] [] [] [] [] [] [] [] [] [] [] [] [] []
    [] ("01-Dec-2023 0900to1100".toList)
    (by decide) (by decide) (by decide) (by decide) (by decide)

/-! ## C9 -/

/-- Ascending (non-decreasing) order check. -/
def sortedAscB : List Nat → Bool
  | [] => true
  | [_] => true
  | a :: b :: rest => decide (a ≤ b) && sortedAscB (b :: rest)

/-- Modelled from the spec: the claimed `Class` week-list invariant —
sorted ascending with all values at least 1. -/
def WeeksInvariant (cl : Class) : Prop :=
  sortedAscB cl.weeks = true ∧ ∀ w ∈ cl.weeks, 1 ≤ w

instance (cl : Class) : Decidable (WeeksInvariant cl) :=
  inferInstanceAs (Decidable (sortedAscB cl.weeks = true ∧ ∀ w ∈ cl.weeks, 1 ≤ w))

/-- C9 counterexample: the table record with week list `Teaching Wk3,0`
parses successfully (recess week 8) into a class whose weeks are `[3, 0]` —
in encounter order, neither sorted nor all at least 1. -/
theorem c9_weeks_not_sorted_counterexample :
    parse_from_table unsortedWeeksTable 8 = .ok [unsortedWeeksCourse] ∧
      unsortedWeeksCourse.classes = [unsortedWeeksClass] ∧
      unsortedWeeksClass.weeks = [3, 0] ∧
      ¬ WeeksInvariant unsortedWeeksClass := by
  refine ⟨by decide, by decide, by decide, by decide⟩

/-- No course in the accumulator has a class whose week list contains the
recess week. -/
def NoRecess (recess : Nat) (acc : List Course) : Prop :=
  ∀ c ∈ acc, ∀ cl ∈ c.classes, recess ∉ cl.weeks

theorem parse_weeks_ok_not_recess {tok : List Char} {recess : Nat} {ws : List Nat}
    (h : parse_weeks tok recess = .ok ws) : recess ∉ ws := by
  unfold parse_weeks at h
  split at h
  · cases h
  · split at h
    · cases h
    · split at h
      · cases h
      · rename_i ws1 hremap
        cases h
        unfold remapWeeks at hremap
        split at hremap
        · rename_i hall
          injection hremap with hmap
          subst hmap
          intro hmem
          obtain ⟨w, hw, heq⟩ := List.mem_map.mp hmem
          by_cases hlt : w < recess <;> simp [hlt] at heq <;> omega
        · cases hremap

theorem headerStep_preserves {recess : Nat} (row : List (List Char))
    (acc : List Course) (hP : NoRecess recess acc) :
    NoRecess recess (headerStep row acc) := by
  unfold headerStep
  split
  · rename_i c hc
    intro x hx cl hcl
    rcases List.mem_cons.mp hx with rfl | hx
    · unfold courseNew at hc
      split at hc
      · cases hc
      · injection hc with hc
        subst hc
        simp at hcl
    · exact hP x hx cl hcl
  · exact hP

theorem examStep_preserves {recess : Nat} {row : List (List Char)}
    {acc acc' : List Course} (h : examStep row acc = .ok acc')
    (hP : NoRecess recess acc) : NoRecess recess acc' := by
  unfold examStep at h
  split at h
  · split at h
    · rename_i cur done
      split at h
      · cases h
      · cases h
        intro x hx cl hcl
        rcases List.mem_cons.mp hx with rfl | hx
        · exact hP cur (by simp) cl hcl
        · exact hP x (by simp [hx]) cl hcl
    · cases h
      exact hP
  · cases h
    exact hP

theorem classStep_preserves {recess : Nat} {row : List (List Char)}
    {acc acc' : List Course} (h : classStep recess row acc = .ok acc')
    (hP : NoRecess recess acc) : NoRecess recess acc' := by
  unfold classStep at h
  split at h
  · cases h
    exact hP
  · split at h
    · cases h
    · split at h
      · cases h
      · split at h
        · cases h
        · cases h
        · rename_i ws hws
          split at h
          · rename_i cur done
            cases h
            intro x hx cl hcl
            rcases List.mem_cons.mp hx with rfl | hx
            · rcases List.mem_append.mp hcl with hcl | hcl
              · exact hP cur (by simp) cl hcl
              · have : cl.weeks = ws := by
                  rcases List.mem_singleton.mp hcl with rfl
                  rfl
                rw [this]
                exact parse_weeks_ok_not_recess hws
            · exact hP x (by simp [hx]) cl hcl
          · cases h

theorem parseRow_preserves {recess : Nat} {row : List (List Char)}
    {acc acc' : List Course} (h : parseRow recess row acc = .ok acc')
    (hP : NoRecess recess acc) : NoRecess recess acc' := by
  unfold parseRow at h
  split at h
  · cases h
  · cases h
  · rename_i acc2 hex
    exact classStep_preserves h
      (examStep_preserves hex (headerStep_preserves row acc hP))

theorem parseRows_preserves {recess : Nat} :
    ∀ (rows : List (List (List Char))) (i : Nat) (acc cs : List Course),
      parseRows recess i acc rows = .ok cs → NoRecess recess acc →
      NoRecess recess cs := by
  intro rows
  induction rows with
  | nil =>
    intro i acc cs h hP
    cases h
    intro c hc
    exact hP c (List.mem_reverse.mp hc)
  | cons chunk rest ih =>
    intro i acc cs h hP
    unfold parseRows at h
    split at h
    · cases h
    · split at h
      · cases h
      · cases h
      · rename_i acc1 hrow
        exact ih (i + 1) acc1 cs h (parseRow_preserves hrow hP)

/-- C9 amended: week lists of parsed classes are recess-adjusted but kept in
encounter order (neither sortedness nor positivity is guaranteed, as the
counterexample shows); the invariant that does hold of the adjustment
`w ↦ if w < recess_week then w else w + 1` is that no produced week number
ever equals `recess_week`. -/
theorem c9_amended_recess_week_not_in_weeks
    (t : List Char) (recess : Nat) (cs : List Course)
    (h : parse_from_table t recess = .ok cs)
    (c : Course) (hc : c ∈ cs) (cl : Class) (hcl : cl ∈ c.classes) :
    recess ∉ cl.weeks := by
  unfold parse_from_table at h
  exact parseRows_preserves _ 0 [] cs h (by intro x hx; cases hx) c hc cl hcl

/-- C9 amended, witnessed on the concrete table `unsortedWeeksTable` with
recess week 8. -/
theorem c9_amended_witness : (8 : Nat) ∉ unsortedWeeksClass.weeks :=
  c9_amended_recess_week_not_in_weeks unsortedWeeksTable 8 [unsortedWeeksCourse]
    (by decide) unsortedWeeksCourse (by decide) unsortedWeeksClass (by decide)

/-! ## C10 -/

/-- Modelled from the spec: a well-formed period token — four digits, the
literal "to", four digits, with each HHMM pair a valid hour (0-23) and
minute (0-59). -/
def PeriodShape (t : List Char) : Prop :=
  ∃ p1 p2 p3 p4 q1 q2 q3 q4 : Char,
    t = [p1, p2, p3, p4, 't', 'o', q1, q2, q3, q4] ∧
    p1.isDigit ∧ p2.isDigit ∧ p3.isDigit ∧ p4.isDigit ∧
    q1.isDigit ∧ q2.isDigit ∧ q3.isDigit ∧ q4.isDigit ∧
    10 * digVal p1 + digVal p2 ≤ 23 ∧ 10 * digVal p3 + digVal p4 ≤ 59 ∧
    10 * digVal q1 + digVal q2 ≤ 23 ∧ 10 * digVal q3 + digVal q4 ≤ 59

/-- The period value a well-formed token denotes, read off its digits. -/
def periodValue (t : List Char) : Period :=
  { start := ⟨10 * digVal (t.getD 0 ' ') + digVal (t.getD 1 ' '),
              10 * digVal (t.getD 2 ' ') + digVal (t.getD 3 ' ')⟩,
    stop := ⟨10 * digVal (t.getD 6 ' ') + digVal (t.getD 7 ' '),
             10 * digVal (t.getD 8 ' ') + digVal (t.getD 9 ' ')⟩ }

/-- C10: `parse_period` succeeds exactly on tokens of the `HHMMtoHHMM`
shape with valid hours and minutes, returning the denoted start and end
times; in particular "0900to1030" parses to 09:00-10:30 and "2500to1030"
fails (with the `ParsePeriodError` the table parser converts to a
field-format error). -/
theorem c10_parse_period_spec :
    (∀ t : List Char, (parse_period t).isSome ↔ PeriodShape t) ∧
    (∀ t : List Char, PeriodShape t → parse_period t = some (periodValue t)) ∧
    parse_period ("0900to1030".toList) = some { start := ⟨9, 0⟩, stop := ⟨10, 30⟩ } ∧
    parse_period ("2500to1030".toList) = none := by
  have hval : ∀ t : List Char, PeriodShape t → parse_period t = some (periodValue t) := by
    intro t ht
    obtain ⟨p1, p2, p3, p4, q1, q2, q3, q4, rfl, h1, h2, h3, h4, h5, h6, h7, h8,
      hb1, hb2, hb3, hb4⟩ := ht
    rw [parse_period]
    rw [if_pos ⟨h1, h2, h3, h4, rfl, rfl, h5, h6, h7, h8⟩,
      if_pos ⟨by omega, by omega⟩, if_pos ⟨by omega, by omega⟩]
    rfl
  refine ⟨?_, hval, by decide, by decide⟩
  intro t
  match t with
  | [] => simp [parse_period, PeriodShape]
  | [a] => simp [parse_period, PeriodShape]
  | [a, b] => simp [parse_period, PeriodShape]
  | [a, b, c] => simp [parse_period, PeriodShape]
  | [a, b, c, d] => simp [parse_period, PeriodShape]
  | [a, b, c, d, e] => simp [parse_period, PeriodShape]
  | [a, b, c, d, e, f] => simp [parse_period, PeriodShape]
  | [a, b, c, d, e, f, g] => simp [parse_period, PeriodShape]
  | [a, b, c, d, e, f, g, k] => simp [parse_period, PeriodShape]
  | [a, b, c, d, e, f, g, k, i] => simp [parse_period, PeriodShape]
  | a :: b :: c :: d :: e :: f :: g :: k :: i :: j :: x :: xs =>
    rw [show parse_period (a :: b :: c :: d :: e :: f :: g :: k :: i :: j :: x :: xs)
      = none from rfl]
    simp [PeriodShape]
  | [a, b, c, d, e, f, g, k, i, j] =>
    constructor
    · intro h
      rw [parse_period] at h
      split at h
      · rename_i hdig
        split at h
        · rename_i hsv
          split at h
          · rename_i hev
            obtain ⟨h1, h2, h3, h4, he, hf, h5, h6, h7, h8⟩ := hdig
            subst he; subst hf
            obtain ⟨hsv1, hsv2⟩ := hsv
            obtain ⟨hev1, hev2⟩ := hev
            exact ⟨a, b, c, d, g, k, i, j, rfl, h1, h2, h3, h4, h5, h6, h7, h8,
              by omega, by omega, by omega, by omega⟩
          · exact absurd h (by simp)
        · exact absurd h (by simp)
      · exact absurd h (by simp)
    · intro ht
      rw [hval _ ht]
      rfl

/-- C10, witness for the conditional part: the shape hypothesis holds of
"0900to1030" and the theorem computes its period. -/
theorem c10_parse_period_witness :
    parse_period ("0900to1030".toList) = some (periodValue ("0900to1030".toList)) :=
  c10_parse_period_spec.2.1 ("0900to1030".toList)
    ⟨'0', '9', '0', '0', '1', '0', '3', '0', by decide, by decide, by decide,
      by decide, by decide, by decide, by decide, by decide, by decide,
      by decide, by decide, by decide, by decide⟩

/-! ## C8 -/

/-- The lowercase codes of a short weekday name. -/
def wdShortLC : Weekday → List Nat
  | .mon => [109, 111, 110]   -- "mon"
  | .tue => [116, 117, 101]   -- "tue"
  | .wed => [119, 101, 100]   -- "wed"
  | .thu => [116, 104, 117]   -- "thu"
  | .fri => [102, 114, 105]   -- "fri"
  | .sat => [115, 97, 116]    -- "sat"
  | .sun => [115, 117, 110]   -- "sun"

/-- The lowercase codes of a long weekday name. -/
def wdLongLC (wd : Weekday) : List Nat := wdShortLC wd ++ wdSuffix wd

/-- C8 counterexample: chrono's weekday parser is not restricted to the
seven case-sensitive three-letter tokens — the full lowercase name
"monday" (not among those tokens) parses to Monday, where the claim says
every such token fails. -/
theorem c8_weekday_not_case_sensitive :
    parse_weekday ("monday".toList) = some .mon ∧
      "monday".toList ∉ ["Sun".toList, "Mon".toList, "Tue".toList, "Wed".toList,
        "Thu".toList, "Fri".toList, "Sat".toList] := by
  constructor <;> decide

set_option maxRecDepth 10000 in
theorem or32_low_aux : ∀ n < 128, ∀ t < 123, 97 ≤ t → ((n ||| 32 = t) ↔ lowB n = t) := by
  decide

theorem or32_low {n t : Nat} (hn : n < 128) (h1 : 97 ≤ t) (h2 : t ≤ 122) :
    (n ||| 32 = t) ↔ lowB n = t :=
  or32_low_aux n hn t (by omega) h1

theorem shortWd_eq_iff (x y z : Nat) (wd : Weekday) :
    shortWd x y z = some wd ↔ [x, y, z] = wdShortLC wd := by
  unfold shortWd
  cases wd <;> split_ifs <;> simp_all [wdShortLC]

theorem shortWd_or32_iff {a b c : Nat} (ha : a < 128) (hb : b < 128) (hc : c < 128)
    (wd : Weekday) :
    shortWd (a ||| 32) (b ||| 32) (c ||| 32) = some wd ↔
      [lowB a, lowB b, lowB c] = wdShortLC wd := by
  rw [shortWd_eq_iff]
  cases wd <;>
    simp only [wdShortLC, List.cons.injEq, and_true] <;>
    exact and_congr (or32_low ha (by omega) (by omega))
      (and_congr (or32_low hb (by omega) (by omega))
        (or32_low hc (by omega) (by omega)))

theorem wdSuffix_ne_nil (wd : Weekday) : wdSuffix wd ≠ [] := by
  cases wd <;> decide

theorem wdSuffix_lowB (wd : Weekday) : (wdSuffix wd).map lowB = wdSuffix wd := by
  cases wd <;> decide

theorem wdShortLC_length (wd : Weekday) : (wdShortLC wd).length = 3 := by
  cases wd <;> rfl

/-- The remainder after the optional long-name suffix is empty iff the tail
is empty (short form) or case-folds to the suffix (long form). -/
theorem sufRest (rest suf : List Nat) (hne : suf ≠ []) (hlow : suf.map lowB = suf) :
    ((if suf.length ≤ rest.length ∧ eqCI (rest.take suf.length) suf
      then rest.drop suf.length else rest) = []) ↔
      (rest = [] ∨ rest.map lowB = suf) := by
  by_cases hr : rest = []
  · subst hr
    rw [if_neg]
    · simp
    · rintro ⟨hlen, _⟩
      exact hne (List.length_eq_zero.mp (by simpa using hlen))
  · split_ifs with hcond
    · obtain ⟨hlen, heqci⟩ := hcond
      constructor
      · intro hdrop
        have hlen2 : rest.length ≤ suf.length := by
          have := List.drop_eq_nil_iff.mp hdrop
          omega
        have htake : rest.take suf.length = rest := List.take_of_length_le (by omega)
        rw [htake] at heqci
        unfold eqCI at heqci
        right
        rw [heqci, hlow]
      · rintro (rfl | hmap)
        · exact absurd rfl hr
        · apply List.drop_eq_nil_of_le
          have := congrArg List.length hmap
          simp at this
          omega
    · constructor
      · intro h
        exact absurd h hr
      · rintro (rfl | hmap)
        · exact absurd rfl hr
        · exfalso
          apply hcond
          have hlen : rest.length = suf.length := by
            have := congrArg List.length hmap
            simpa using this
          refine ⟨by omega, ?_⟩
          unfold eqCI
          rw [List.take_of_length_le (by omega), hmap, hlow]

/-- Characterization of chrono's weekday scanner on ASCII bytes: it accepts
exactly the strings that case-fold to a short or long weekday name. -/
theorem weekdayFromBytes_iff (s : List Nat) (hascii : ∀ b ∈ s, b < 128)
    (wd : Weekday) :
    weekdayFromBytes s = some wd ↔
      (s.map lowB = wdShortLC wd ∨ s.map lowB = wdLongLC wd) := by
  match s with
  | [] =>
    rw [show weekdayFromBytes [] = none from rfl]
    cases wd <;> simp [wdShortLC, wdLongLC, wdSuffix]
  | [a] =>
    rw [show weekdayFromBytes [a] = none from rfl]
    cases wd <;> simp [wdShortLC, wdLongLC, wdSuffix]
  | [a, b] =>
    rw [show weekdayFromBytes [a, b] = none from rfl]
    cases wd <;> simp [wdShortLC, wdLongLC, wdSuffix]
  | a :: b :: c :: rest =>
    have ha : a < 128 := hascii a (by simp)
    have hb : b < 128 := hascii b (by simp)
    have hc : c < 128 := hascii c (by simp)
    rw [weekdayFromBytes]
    cases hsw : shortWd (a ||| 32) (b ||| 32) (c ||| 32) with
    | none =>
      show (none : Option Weekday) = some wd ↔ _
      constructor
      · intro h
        exact absurd h (by simp)
      · intro hr
        exfalso
        have hcomp : [lowB a, lowB b, lowB c] = wdShortLC wd := by
          rcases hr with hmap | hmap
          · have h3 := congrArg (List.take 3) hmap
            simp only [List.map_cons, List.take_succ_cons, List.take_zero] at h3
            rw [h3, List.take_of_length_le (by rw [wdShortLC_length wd])]
          · have h3 := congrArg (List.take 3) hmap
            simp only [List.map_cons, List.take_succ_cons, List.take_zero] at h3
            rw [h3, wdLongLC, ← wdShortLC_length wd, List.take_left]
        have h2 := (shortWd_or32_iff ha hb hc wd).mpr hcomp
        rw [h2] at hsw
        exact absurd hsw (by simp)
    | some wd0 =>
      show (if _ then some wd0 else none) = some wd ↔ _
      constructor
      · intro h
        by_cases hfin : (if (wdSuffix wd0).length ≤ rest.length ∧
            eqCI (rest.take (wdSuffix wd0).length) (wdSuffix wd0)
          then rest.drop (wdSuffix wd0).length else rest) = []
        · rw [if_pos hfin] at h
          injection h with h
          subst h
          have hcomp : [lowB a, lowB b, lowB c] = wdShortLC wd0 :=
            (shortWd_or32_iff ha hb hc wd0).mp hsw
          rcases (sufRest rest (wdSuffix wd0) (wdSuffix_ne_nil wd0)
              (wdSuffix_lowB wd0)).mp hfin with rfl | hmap
          · left
            simpa using hcomp
          · right
            rw [wdLongLC, ← hcomp]
            simp [hmap]
        · rw [if_neg hfin] at h
          exact absurd h (by simp)
      · intro hr
        rcases hr with hmap | hmap
        · have hrest : rest = [] := by
            have hlen := congrArg List.length hmap
            simp only [List.length_map, List.length_cons, wdShortLC_length wd] at hlen
            exact List.length_eq_zero.mp (by omega)
          subst hrest
          have hcomp : [lowB a, lowB b, lowB c] = wdShortLC wd := by simpa using hmap
          have h2 := (shortWd_or32_iff ha hb hc wd).mpr hcomp
          rw [h2] at hsw
          injection hsw with hsw
          subst hsw
          rw [if_pos]
          exact (sufRest [] (wdSuffix wd) (wdSuffix_ne_nil wd)
            (wdSuffix_lowB wd)).mpr (Or.inl rfl)
        · have hcomp : [lowB a, lowB b, lowB c] = wdShortLC wd := by
            have h3 := congrArg (List.take 3) hmap
            simp only [List.map_cons, List.take_succ_cons, List.take_zero] at h3
            rw [h3, wdLongLC, ← wdShortLC_length wd, List.take_left]
          have hsufm : rest.map lowB = wdSuffix wd := by
            have h3 := congrArg (List.drop 3) hmap
            simp only [List.map_cons, List.drop_succ_cons, List.drop_zero] at h3
            rw [h3, wdLongLC, ← wdShortLC_length wd, List.drop_left]
          have h2 := (shortWd_or32_iff ha hb hc wd).mpr hcomp
          rw [h2] at hsw
          injection hsw with hsw
          subst hsw
          rw [if_pos]
          exact (sufRest rest (wdSuffix wd) (wdSuffix_ne_nil wd)
            (wdSuffix_lowB wd)).mpr (Or.inr hsufm)

/-- C8 amended: weekday parsing accepts exactly the ASCII tokens that
case-fold (ASCII case-insensitively) to a three-letter short weekday name
or to a full weekday name, mapping each to that weekday; every other ASCII
token fails.  In particular acceptance is not case-sensitive and full
names are accepted, contrary to the claim. -/
theorem c8_amended_weekday_characterization (s : List Char)
    (hascii : ∀ c ∈ s, c.toNat < 128) (wd : Weekday) :
    parse_weekday s = some wd ↔
      (s.map (fun c => lowB c.toNat) = wdShortLC wd ∨
        s.map (fun c => lowB c.toNat) = wdLongLC wd) := by
  rw [parse_weekday, weekdayFromBytes_iff (s.map Char.toNat)
    (by
      intro b hb
      obtain ⟨c, hc, rfl⟩ := List.mem_map.mp hb
      exact hascii c hc) wd, List.map_map]
  exact Iff.rfl

/-- C8 amended, witnessed at the token "Friday". -/
theorem c8_amended_witness : parse_weekday ("Friday".toList) = some .fri :=
  (c8_amended_weekday_characterization ("Friday".toList) (by decide) .fri).mpr
    (Or.inr (by decide))

/-! ## C1 -/

/-- One entry of a well-formed week list, as written in the token: a bare
integer or a range, both as digit strings. -/
inductive WkEntry where
  | single (ds : List Char)
  | span (lo hi : List Char)
  deriving DecidableEq, Repr

/-- Well-formedness per the claim: digit strings denoting u32 values, ranges
with lower bound at most upper bound.  (The bound `2 ^ 32 - 1` keeps every
denoted week below `u32::MAX`, where the source's arithmetic would
overflow.) -/
def WkEntry.WF : WkEntry → Prop
  | .single ds => ds ≠ [] ∧ (∀ c ∈ ds, c.isDigit) ∧ digitsVal ds < 2 ^ 32 - 1
  | .span lo hi => lo ≠ [] ∧ hi ≠ [] ∧ (∀ c ∈ lo, c.isDigit) ∧ (∀ c ∈ hi, c.isDigit)
      ∧ digitsVal lo ≤ digitsVal hi ∧ digitsVal hi < 2 ^ 32 - 1

instance : (e : WkEntry) → Decidable e.WF
  | .single _ => inferInstanceAs (Decidable (_ ∧ _))
  | .span _ _ => inferInstanceAs (Decidable (_ ∧ _))

/-- The textual form of an entry. -/
def WkEntry.render : WkEntry → List Char
  | .single ds => ds
  | .span lo hi => lo ++ '-' :: hi

/-- The weeks an entry denotes, in encounter order. -/
def WkEntry.expand : WkEntry → List Nat
  | .single ds => [digitsVal ds]
  | .span lo hi => List.range' (digitsVal lo) (digitsVal hi + 1 - digitsVal lo)

theorem stripPlus_of_digits (ds : List Char) (h : ∀ c ∈ ds, c.isDigit) :
    stripPlus ds = ds := by
  cases ds with
  | nil => rfl
  | cons c cs =>
    have hc : c ≠ '+' := by
      intro hc
      subst hc
      exact absurd (h '+' (by simp)) (by decide)
    unfold stripPlus
    split
    · rename_i heq
      injection heq with h1 _
      exact absurd h1 hc
    · rfl

theorem parseU32_digits (ds : List Char) (hne : ds ≠ []) (hd : ∀ c ∈ ds, c.isDigit)
    (hlt : digitsVal ds < 2 ^ 32) : parseU32 ds = some (digitsVal ds) := by
  rw [parseU32, stripPlus_of_digits ds hd, if_pos ⟨hne, hd, hlt⟩]

theorem dash_not_mem_of_digits (ds : List Char) (hd : ∀ c ∈ ds, c.isDigit) :
    '-' ∉ ds := by
  intro h
  exact absurd (hd '-' h) (by decide)

theorem expandPiece_render (e : WkEntry) (h : e.WF) :
    expandPiece e.render = some e.expand := by
  cases e with
  | single ds =>
    obtain ⟨hne, hd, hlt⟩ := h
    rw [WkEntry.render, expandPiece.eq_def,
      splitSep_eq_single '-' ds (dash_not_mem_of_digits ds hd)]
    cases ds with
    | nil => exact absurd rfl hne
    | cons c cs =>
      rw [parseU32_digits _ hne hd (by omega)]
      rfl
  | span lo hi =>
    obtain ⟨hlo, hhi, hdlo, hdhi, hle, hlt⟩ := h
    rw [WkEntry.render, expandPiece.eq_def,
      splitSep_append_sep '-' lo hi (dash_not_mem_of_digits lo hdlo),
      splitSep_eq_single '-' hi (dash_not_mem_of_digits hi hdhi)]
    show (if lo ≠ [] ∧ hi ≠ [] ∧ (∀ c ∈ lo, c.isDigit = true) ∧ (∀ c ∈ hi, c.isDigit = true)
        then
          if digitsVal lo < 2 ^ 32 ∧ digitsVal hi + 1 < 2 ^ 32 then
            some (List.range' (digitsVal lo) (digitsVal hi + 1 - digitsVal lo))
          else none
        else Option.map (fun v => [v]) (parseU32 (lo ++ '-' :: hi)))
      = some (WkEntry.span lo hi).expand
    rw [if_pos ⟨hlo, hhi, hdlo, hdhi⟩, if_pos ⟨by omega, by omega⟩]
    rfl

theorem processPieces_renders (es : List WkEntry) (h : ∀ e ∈ es, e.WF) :
    processPieces (es.map WkEntry.render) = some (es.flatMap WkEntry.expand) := by
  induction es with
  | nil => rfl
  | cons e rest ih =>
    rw [List.map_cons, processPieces, expandPiece_render e (h e (by simp)),
      ih (fun x hx => h x (by simp [hx]))]
    rfl

theorem takeWhile_all (p : Char → Bool) (l : List Char) (h : ∀ c ∈ l, p c) :
    l.takeWhile p = l := by
  induction l with
  | nil => rfl
  | cons c t ih =>
    rw [List.takeWhile_cons, if_pos (h c (by simp)),
      ih (fun x hx => h x (by simp [hx]))]

theorem findAfterMarker_self (m body : List Char) (hm : m ≠ []) :
    findAfterMarker m (m ++ body) = some body := by
  cases m with
  | nil => exact absurd rfl hm
  | cons c t =>
    rw [List.cons_append, findAfterMarker, if_pos, ← List.cons_append,
      List.drop_left]
    rw [← List.cons_append]
    exact List.isPrefixOf_iff_prefix.mpr (List.prefix_append _ _)

theorem render_chars (e : WkEntry) (hwf : e.WF) (c : Char) (hc : c ∈ e.render) :
    c.isDigit ∨ c = '-' := by
  cases e with
  | single ds => exact Or.inl (hwf.2.1 c hc)
  | span lo hi =>
    obtain ⟨_, _, hdlo, hdhi, _, _⟩ := hwf
    rw [WkEntry.render] at hc
    rcases List.mem_append.mp hc with h | h
    · exact Or.inl (hdlo c h)
    · rcases List.mem_cons.mp h with rfl | h
      · exact Or.inr rfl
      · exact Or.inl (hdhi c h)

/-- C1: on a token consisting of the marker "Teaching Wk" followed by a
comma-separated list of well-formed entries (bare integers and ranges
`a-b` with `a ≤ b`), `parse_weeks` returns the entries' expansions
concatenated in encounter order, each week `w` remapped to `w` if
`w < recess_week` and to `w + 1` otherwise. -/
theorem c1_parse_weeks_spec (es : List WkEntry) (recess : Nat)
    (hne : es ≠ []) (hwf : ∀ e ∈ es, e.WF) :
    parse_weeks (markerChars ++ joinSep ',' (es.map WkEntry.render)) recess =
      .ok ((es.flatMap WkEntry.expand).map
        (fun w => if w < recess then w else w + 1)) := by
  have hbody : ∀ c ∈ joinSep ',' (es.map WkEntry.render),
      c.isDigit ∨ c = '-' ∨ c = ',' := by
    intro c hc
    rcases mem_joinSep ',' _ c hc with h | ⟨p, hp, hcp⟩
    · exact Or.inr (Or.inr h)
    · obtain ⟨e, he, rfl⟩ := List.mem_map.mp hp
      rcases render_chars e (hwf e he) c hcp with h | h
      · exact Or.inl h
      · exact Or.inr (Or.inl h)
  have htw : (joinSep ',' (es.map WkEntry.render)).takeWhile
      (fun c => c ≠ '\n') = joinSep ',' (es.map WkEntry.render) := by
    apply takeWhile_all
    intro c hc
    have : c ≠ '\n' := by
      rcases hbody c hc with h | h | h
      · intro he
        subst he
        exact absurd h (by decide)
      · subst h
        decide
      · subst h
        decide
    exact decide_eq_true this
  have hsplit : splitSep ',' (joinSep ',' (es.map WkEntry.render)) =
      es.map WkEntry.render := by
    apply splitSep_joinSep
    · simpa using hne
    · intro p hp hmem
      obtain ⟨e, he, rfl⟩ := List.mem_map.mp hp
      rcases render_chars e (hwf e he) ',' hmem with h | h
      · exact absurd h (by decide)
      · exact absurd h (by decide)
  have hpp := processPieces_renders es hwf
  have hremap : remapWeeks recess (es.flatMap WkEntry.expand) =
      some ((es.flatMap WkEntry.expand).map
        (fun w => if w < recess then w else w + 1)) := by
    rw [remapWeeks, if_pos]
    intro w hw
    right
    obtain ⟨e, he, hwe⟩ := List.mem_flatMap.mp hw
    cases e with
    | single ds =>
      obtain ⟨_, _, hlt⟩ := hwf _ he
      rw [WkEntry.expand] at hwe
      rcases List.mem_singleton.mp hwe with rfl
      omega
    | span lo hi =>
      obtain ⟨_, _, _, _, hle, hlt⟩ := hwf _ he
      rw [WkEntry.expand] at hwe
      have := List.mem_range'_1.mp hwe
      omega
  rw [parse_weeks, findAfterMarker_self markerChars _ (by decide)]
  show (match processPieces (splitSep ','
      ((joinSep ',' (es.map WkEntry.render)).takeWhile (fun c => c ≠ '\n'))) with
    | none => RRes.panic
    | some ws =>
      match remapWeeks recess ws with
      | none => RRes.panic
      | some ws' => RRes.ok ws') = _
  rw [htw, hsplit, hpp]
  show (match remapWeeks recess (es.flatMap WkEntry.expand) with
    | none => RRes.panic
    | some ws' => RRes.ok ws') = _
  rw [hremap]

/-- C1, witnessed on the spec's own example
`parse_weeks("Teaching Wk6,7,8,9,10", recess_week = 8) = [6,7,9,10,11]`. -/
theorem c1_parse_weeks_witness :
    parse_weeks ("Teaching Wk6,7,8,9,10".toList) 8 = .ok [6, 7, 9, 10, 11] := by
  have h := c1_parse_weeks_spec
    [.single ['6'], .single ['7'], .single ['8'], .single ['9'], .single ['1', '0']]
    8 (by decide) (by decide)
  exact h

/-! ## C2 -/

theorem nisoweeks_cases (y : Nat) : nisoweeks y = 52 ∨ nisoweeks y = 53 := by
  unfold nisoweeks
  split
  · exact Or.inr rfl
  · exact Or.inl rfl

theorem isoWeekNum_pos (d : CalDate) : 1 ≤ isoWeekNum d := by
  unfold isoWeekNum
  split
  · rcases nisoweeks_cases (d.year - 1) with h | h <;> omega
  · split <;> omega

theorem isoWeekNum_le_53 (d : CalDate) (hv : d.Valid) : isoWeekNum d ≤ 53 := by
  obtain ⟨h1, h2⟩ := hv
  have hord : d.ord ≤ 366 := by
    unfold daysInYear at h2
    split at h2 <;> omega
  unfold isoWeekNum isoWeekRaw
  have hdow : dowOfAbs d.abs < 7 := Nat.mod_lt _ (by omega)
  split
  · rcases nisoweeks_cases (d.year - 1) with h | h <;> omega
  · split
    · omega
    · omega

theorem absOfYmd_jan4 (y : Nat) : absOfYmd y 1 4 = daysBeforeYear y + 4 := rfl

theorem isoWeek1Monday_le (y : Nat) : isoWeek1Monday y ≤ daysBeforeYear y + 4 := by
  rw [isoWeek1Monday, absOfYmd_jan4]
  omega

theorem dow_isoWeek1Monday (y : Nat) : dowOfAbs (isoWeek1Monday y) = 0 := by
  rw [isoWeek1Monday, absOfYmd_jan4]
  unfold dowOfAbs
  omega

theorem wdOfNum_numFromMonday (wd : Weekday) : wdOfNum wd.numFromMonday = wd := by
  cases wd <;> rfl

theorem numFromMonday_le (wd : Weekday) : wd.numFromMonday ≤ 6 := by
  cases wd <;> decide

/-- The date resolved by `from_isoywd_opt` falls on the requested weekday. -/
theorem weekdayOfAbs_from_isoywd (y w : Nat) (wd : Weekday) (fd : Nat)
    (h : from_isoywd_abs y w wd = some fd) : weekdayOfAbs fd = wd := by
  unfold from_isoywd_abs at h
  split at h
  · split at h
    · injection h with h
      subst h
      have h0 := dow_isoWeek1Monday y
      have h6 := numFromMonday_le wd
      unfold dowOfAbs at h0
      rw [weekdayOfAbs]
      have : dowOfAbs (isoWeek1Monday y + 7 * (w - 1) + wd.numFromMonday)
          = wd.numFromMonday := by
        unfold dowOfAbs
        omega
      rw [this, wdOfNum_numFromMonday]
    · cases h
  · cases h

theorem MAXABS_val : MAXABS = 95746130 := by
  rw [MAXABS]
  unfold daysBeforeYear leapsBefore
  norm_num

theorem fd_le_MAXABS {y w dm : Nat} (hy : y ≤ 262141) (hw : w ≤ 53) (hdm : dm ≤ 6) :
    isoWeek1Monday y + 7 * (w - 1) + dm ≤ MAXABS := by
  have h1 := isoWeek1Monday_le y
  rw [MAXABS_val]
  unfold daysBeforeYear leapsBefore at h1
  omega

theorem weeksGo_ne_err (code title : List Char) (cl : Class) (off : Int) (fd : Nat)
    (ws : List Nat) : weeksGo code title cl off fd ws ≠ .err () := by
  induction ws with
  | nil => simp [weeksGo]
  | cons w rest ih =>
    rw [weeksGo]
    split
    · simp
    · split
      · simp
      · exact ih

/-- C2 amended: the event expander resolves the first occurrence from the
plain calendar year (`Datelike::year`) of `semester_start_date` — not the
ISO week-date year — combined with its ISO week number and the class's
weekday; `generate_class_events` returns its date-resolution error exactly
when that ISO week number exceeds the number of ISO weeks in that calendar
year, and on success the resolved date lies in that week's Monday-anchored
grid and falls on the class's weekday. -/
theorem c2_amended_class_date_resolution (code title : List Char) (cl : Class)
    (ssd : CalDate) (off : Int) (hvalid : ssd.Valid)
    (hy2 : ssd.year ≤ 262141) :
    (generate_class_events code title cl ssd off = .err () ↔
      nisoweeks ssd.year < isoWeekNum ssd) ∧
    (∀ fd, from_isoywd_abs ssd.year (isoWeekNum ssd) cl.weekday = some fd →
      fd = isoWeek1Monday ssd.year + 7 * (isoWeekNum ssd - 1) +
        cl.weekday.numFromMonday ∧
      weekdayOfAbs fd = cl.weekday) := by
  constructor
  · rw [generate_class_events]
    cases hf : from_isoywd_abs ssd.year (isoWeekNum ssd) cl.weekday with
    | none =>
      constructor
      · intro _
        by_contra hn
        push_neg at hn
        unfold from_isoywd_abs at hf
        rw [if_pos ⟨isoWeekNum_pos ssd, hn⟩,
          if_pos (fd_le_MAXABS hy2 (isoWeekNum_le_53 ssd hvalid)
            (numFromMonday_le cl.weekday))] at hf
        cases hf
      · intro _
        rfl
    | some fd =>
      constructor
      · intro h
        exact absurd h (weeksGo_ne_err code title cl off fd cl.weeks)
      · intro hn
        exfalso
        unfold from_isoywd_abs at hf
        rw [if_neg (by omega)] at hf
        cases hf
  · intro fd hf
    have hwd := weekdayOfAbs_from_isoywd _ _ _ _ hf
    unfold from_isoywd_abs at hf
    split at hf
    · split at hf
      · injection hf with hf
        exact ⟨hf.symm, hwd⟩
      · cases hf
    · cases hf

/-- C2 counterexample: for semester start 2021-01-01 (ISO year 2020, ISO
week 53 — a triple that does have a valid date), the expander nevertheless
fails, because the source passes the calendar year 2021 (which has only 52
ISO weeks) to `from_isoywd_opt` together with the ISO week 53. -/
theorem c2_iso_year_counterexample :
    generate_class_events ("AB1234".toList) ("T".toList) mondayClass ⟨2021, 1⟩ 0
        = .err () ∧
      isoYearSpec ⟨2021, 1⟩ = 2020 ∧ isoWeekNum ⟨2021, 1⟩ = 53 ∧
      (from_isoywd_abs (isoYearSpec ⟨2021, 1⟩) (isoWeekNum ⟨2021, 1⟩)
        mondayClass.weekday).isSome = true := by
  refine ⟨by decide, by decide, by decide, by decide⟩

/-- C2 amended, witnessed at semester start 2024-01-01. -/
theorem c2_amended_witness :
    weekdayOfAbs ((from_isoywd_abs 2024 (isoWeekNum ⟨2024, 1⟩)
      Weekday.mon).getD 0) = Weekday.mon := by
  have h := c2_amended_class_date_resolution ("AB1234".toList) ("T".toList)
    mondayClass ⟨2024, 1⟩ 0 (by decide) (by decide)
  exact (h.2 ((from_isoywd_abs 2024 (isoWeekNum ⟨2024, 1⟩) Weekday.mon).getD 0)
    (by decide)).2

/-! ## C3 -/

/-- The events of one class in listed-week order, anchored at its resolved
first-occurrence day. -/
def classEventsSpec (code title : List Char) (cl : Class) (ssd : CalDate)
    (off : Int) : List EventM :=
  cl.weeks.map (weekEvent code title cl off
    ((from_isoywd_abs ssd.year (isoWeekNum ssd) cl.weekday).getD 0))

/-- The events of one course: class events in class order, then the exam
event if present. -/
def courseEventsSpec (c : Course) (ssd : CalDate) (off : Int) : List EventM :=
  c.classes.flatMap (fun cl => classEventsSpec c.code c.title cl ssd off) ++
    (match c.exam with
     | some e => [generate_exam_event c.code c.title e off]
     | none => [])

/-- N of the claim: the total number of class-week pairs. -/
def totalClassWeekPairs : List Course → Nat
  | [] => 0
  | c :: cs => (c.classes.map (fun cl => cl.weeks.length)).sum + totalClassWeekPairs cs

/-- E of the claim: the number of exam-bearing courses. -/
def examCount : List Course → Nat
  | [] => 0
  | c :: cs => (if c.exam.isSome then 1 else 0) + examCount cs

theorem event_bound {y w dm wk : Nat} (hy : y ≤ 262141) (hw : w ≤ 53)
    (hdm : dm ≤ 6) (hwk : wk ≤ 104) :
    isoWeek1Monday y + 7 * (w - 1) + dm + 7 * (wk - 1) ≤ MAXABS := by
  have h1 := isoWeek1Monday_le y
  rw [MAXABS_val]
  unfold daysBeforeYear leapsBefore at h1
  omega

theorem weeksGo_ok (code title : List Char) (cl : Class) (off : Int) (fd : Nat)
    (ws : List Nat) (h : ∀ w ∈ ws, 1 ≤ w ∧ fd + 7 * (w - 1) ≤ MAXABS) :
    weeksGo code title cl off fd ws = .ok (ws.map (weekEvent code title cl off fd)) := by
  induction ws with
  | nil => rfl
  | cons w rest ih =>
    have hw := h w (by simp)
    rw [weeksGo, if_neg (by omega), ih (fun x hx => h x (by simp [hx]))]
    rfl

theorem gce_ok (code title : List Char) (cl : Class) (ssd : CalDate) (off : Int)
    (hvalid : ssd.Valid) (hy2 : ssd.year ≤ 262141)
    (hres : isoWeekNum ssd ≤ nisoweeks ssd.year)
    (hwk : ∀ w ∈ cl.weeks, 1 ≤ w ∧ w ≤ 104) :
    generate_class_events code title cl ssd off =
      .ok (classEventsSpec code title cl ssd off) := by
  have hf : from_isoywd_abs ssd.year (isoWeekNum ssd) cl.weekday =
      some (isoWeek1Monday ssd.year + 7 * (isoWeekNum ssd - 1) +
        cl.weekday.numFromMonday) := by
    rw [from_isoywd_abs, if_pos ⟨isoWeekNum_pos ssd, hres⟩,
      if_pos (fd_le_MAXABS hy2 (isoWeekNum_le_53 ssd hvalid)
        (numFromMonday_le cl.weekday))]
  rw [generate_class_events, hf, classEventsSpec, hf]
  show weeksGo code title cl off (isoWeek1Monday ssd.year + 7 * (isoWeekNum ssd - 1)
    + cl.weekday.numFromMonday) cl.weeks = _
  rw [weeksGo_ok code title cl off _ cl.weeks
    (fun w hw => ⟨(hwk w hw).1,
      event_bound hy2 (isoWeekNum_le_53 ssd hvalid)
        (numFromMonday_le cl.weekday) (hwk w hw).2⟩)]
  rfl

theorem classesGo_ok (c : Course) (ssd : CalDate) (off : Int) (cls : List Class)
    (hvalid : ssd.Valid) (hy2 : ssd.year ≤ 262141)
    (hres : isoWeekNum ssd ≤ nisoweeks ssd.year)
    (hwk : ∀ cl ∈ cls, ∀ w ∈ cl.weeks, 1 ≤ w ∧ w ≤ 104) :
    classesGo c ssd off cls =
      .ok (cls.flatMap (fun cl => classEventsSpec c.code c.title cl ssd off)) := by
  induction cls with
  | nil => rfl
  | cons cl rest ih =>
    rw [classesGo, gce_ok c.code c.title cl ssd off hvalid hy2 hres
      (hwk cl (by simp)), ih (fun x hx => hwk x (by simp [hx]))]
    rfl

theorem courseEvents_ok (c : Course) (ssd : CalDate) (off : Int)
    (hvalid : ssd.Valid) (hy2 : ssd.year ≤ 262141)
    (hres : isoWeekNum ssd ≤ nisoweeks ssd.year)
    (hwk : ∀ cl ∈ c.classes, ∀ w ∈ cl.weeks, 1 ≤ w ∧ w ≤ 104) :
    courseEvents c ssd off = .ok (courseEventsSpec c ssd off) := by
  rw [courseEvents, classesGo_ok c ssd off c.classes hvalid hy2 hres hwk,
    courseEventsSpec]

theorem courseEventsSpec_length (c : Course) (ssd : CalDate) (off : Int) :
    (courseEventsSpec c ssd off).length =
      (c.classes.map (fun cl => cl.weeks.length)).sum +
        (if c.exam.isSome then 1 else 0) := by
  rw [courseEventsSpec, List.length_append]
  congr 1
  · induction c.classes with
    | nil => rfl
    | cons cl rest ih =>
      rw [List.flatMap_cons, List.length_append, List.map_cons, List.sum_cons, ih]
      congr 1
      rw [classEventsSpec, List.length_map]
  · cases c.exam <;> rfl

/-- C3: on inputs where every class resolves (the semester start's ISO week
exists in its calendar year, all weeks at least 1 and within the date
range), `generate_events` succeeds and returns exactly the concatenation,
in course order, of each course's class events — in class order, weeks in
listed order per class — followed by that course's exam event (if any);
the record count is N + E. -/
theorem c3_generate_events_order_count (courses : List Course) (ssd : CalDate)
    (off : Int) (hvalid : ssd.Valid) (hy2 : ssd.year ≤ 262141)
    (hres : isoWeekNum ssd ≤ nisoweeks ssd.year)
    (hwk : ∀ c ∈ courses, ∀ cl ∈ c.classes, ∀ w ∈ cl.weeks, 1 ≤ w ∧ w ≤ 104) :
    generate_events courses ssd off =
      .ok (courses.flatMap (fun c => courseEventsSpec c ssd off)) ∧
    (courses.flatMap (fun c => courseEventsSpec c ssd off)).length =
      totalClassWeekPairs courses + examCount courses := by
  constructor
  · induction courses with
    | nil => rfl
    | cons c rest ih =>
      rw [generate_events, courseEvents_ok c ssd off hvalid hy2 hres
        (hwk c (by simp)), ih (fun x hx => hwk x (by simp [hx]))]
      rfl
  · induction courses with
    | nil => rfl
    | cons c rest ih =>
      rw [List.flatMap_cons, List.length_append,
        ih (fun x hx => hwk x (by simp [hx])), courseEventsSpec_length,
        totalClassWeekPairs, examCount]
      omega

/-- C3, witnessed on a one-course table (two class weeks plus an exam:
N = 2, E = 1, three records). -/
theorem c3_generate_events_witness :
    generate_events [examCourse] ⟨2024, 1⟩ 0 =
        .ok ([examCourse].flatMap (fun c => courseEventsSpec c ⟨2024, 1⟩ 0)) ∧
      ([examCourse].flatMap (fun c => courseEventsSpec c ⟨2024, 1⟩ 0)).length =
        totalClassWeekPairs [examCourse] + examCount [examCourse] :=
  c3_generate_events_order_count [examCourse] ⟨2024, 1⟩ 0 (by decide) (by decide)
    (by decide) (by decide)

end NTT
